import Mathlib

/-!
Verification development for a minimal web-application framework
(`src/framework/router/application.ts`).

The TypeScript source is shallowly embedded:
* strings are `List Char`;
* JavaScript objects used as string-keyed maps are association lists
  (`List (List Char × β)`) with JavaScript property-assignment semantics
  (`objSet`): overwriting an existing key keeps its position, a new key is
  appended at the end;
* compiled `RegExp` values are an abstract-syntax-tree type `Regex` with a
  positional matching semantics `Matches r s i j` ("`r` matches the slice of
  `s` from index `i` to index `j`"); `RegExp.exec` succeeding corresponds to
  the existence of some matching slice (`execSucceeds`);
* asynchronous functions that can throw are `Except (List Char) _`;
* external JavaScript builtins and libraries (`JSON.parse`, `JSON.stringify`,
  `decodeURIComponent`, `encodeURIComponent`, the `graphql` executor) are
  explicit function parameters of the definitions that call them.
-/

/-- JavaScript strings, embedded as lists of characters. -/
abbrev Str := List Char

/-- Lowercasing of a string (`String.prototype.toLowerCase` on the
method names used here, which are ASCII). -/
def toLowerStr (s : Str) : Str := s.map Char.toLower

/-- JavaScript object property read: first (only) binding of key `k`. -/
def objGet {β : Type} (o : List (Str × β)) (k : Str) : Option β :=
  (o.find? (fun p => p.1 == k)).map (fun p => p.2)

/-- JavaScript object property assignment `o[k] = v`: an existing key keeps
its position and gets the new value, a fresh key is appended at the end
(JavaScript objects have unique keys and preserve insertion order). -/
def objSet {β : Type} : List (Str × β) → Str → β → List (Str × β)
  | [], k, v => [(k, v)]
  | p :: o, k, v => if p.1 == k then (k, v) :: o else p :: objSet o k v

/-- The keys of an embedded JavaScript object, in property order. -/
def objKeys {β : Type} : List (Str × β) → List Str
  | [] => []
  | p :: o => p.1 :: objKeys o

theorem objGet_nil {β : Type} (k : Str) : objGet ([] : List (Str × β)) k = none := rfl

theorem objGet_cons {β : Type} (p : Str × β) (o : List (Str × β)) (k : Str) :
    objGet (p :: o) k = if p.1 == k then some p.2 else objGet o k := by
  by_cases hp : (p.1 == k) = true
  · rw [objGet, @List.find?_cons_of_pos _ (fun q => q.1 == k) p o hp, if_pos hp]
    rfl
  · rw [objGet, @List.find?_cons_of_neg _ (fun q => q.1 == k) p o hp, if_neg hp]
    rfl

theorem objGet_objSet_same {β : Type} (o : List (Str × β)) (k : Str) (v : β) :
    objGet (objSet o k v) k = some v := by
  induction o with
  | nil => simp [objSet, objGet_cons]
  | cons p o ih =>
    by_cases hp : (p.1 == k) = true
    · simp [objSet, hp, objGet_cons]
    · simp [objSet, hp, objGet_cons, ih]

theorem objGet_objSet_other {β : Type} (o : List (Str × β)) (k k' : Str) (v : β)
    (hne : k' ≠ k) : objGet (objSet o k v) k' = objGet o k' := by
  have hkk' : (k == k') = false := by
    simp only [beq_eq_false_iff_ne, ne_eq]
    exact fun h => hne h.symm
  induction o with
  | nil => simp [objSet, objGet_cons, hkk']
  | cons p o ih =>
    by_cases hp : (p.1 == k) = true
    · have hpk : p.1 = k := by simpa using hp
      simp [objSet, hp, objGet_cons, hkk', hpk]
    · simp [objSet, hp, objGet_cons, ih]

theorem objKeys_objSet_of_mem {β : Type} (o : List (Str × β)) (k : Str) (v : β)
    (h : k ∈ objKeys o) : objKeys (objSet o k v) = objKeys o := by
  induction o with
  | nil => simp [objKeys] at h
  | cons p o ih =>
    by_cases hp : (p.1 == k) = true
    · have hpk : p.1 = k := by simpa using hp
      simp [objKeys, objSet, hp, hpk]
    · have hpk : p.1 ≠ k := by simpa using hp
      have hmem : k ∈ objKeys o := by
        rcases (by simpa [objKeys] using h : k = p.1 ∨ k ∈ objKeys o) with h' | h'
        · exact absurd h'.symm hpk
        · exact h'
      simp [objKeys, objSet, hp, ih hmem]

theorem objSet_append_of_not_mem {β : Type} (o : List (Str × β)) (k : Str) (v : β)
    (h : k ∉ objKeys o) : objSet o k v = o ++ [(k, v)] := by
  induction o with
  | nil => simp [objSet]
  | cons p o ih =>
    have hpk : p.1 ≠ k := by
      intro he
      exact h (by simp [objKeys, he])
    have hmem : k ∉ objKeys o := by
      intro hm
      exact h (by simp [objKeys, hm])
    simp [objSet, (by simpa using hpk : ¬(p.1 == k) = true), ih hmem]

theorem objSet_ne_nil {β : Type} (o : List (Str × β)) (k : Str) (v : β) :
    objSet o k v ≠ [] := by
  cases o with
  | nil => simp [objSet]
  | cons p o =>
    by_cases hp : p.1 == k <;> simp [objSet, hp]

/-! ## Regular expressions

A compiled JavaScript `RegExp` is embedded as an abstract syntax tree.
`bos` and `eos` are the anchors `^` and `$` (no multiline flag is ever set in
the source, so they assert begin/end of the whole input). `cls` is a
character class such as `[0-9]`, `group` a capturing group. -/

inductive Regex : Type where
  | eps : Regex
  | bos : Regex
  | eos : Regex
  | char : Char → Regex
  | cls : (Char → Bool) → Regex
  | concat : Regex → Regex → Regex
  | alt : Regex → Regex → Regex
  | star : Regex → Regex
  | group : Regex → Regex

/-- Positional matching semantics: `Matches r s i j` states that the regex
`r` matches the characters of `s` from position `i` (inclusive) to position
`j` (exclusive). The anchors constrain the positions themselves. -/
inductive Matches : Regex → Str → Nat → Nat → Prop where
  | eps {s : Str} {i : Nat} : i ≤ s.length → Matches .eps s i i
  | bos {s : Str} : Matches .bos s 0 0
  | eos {s : Str} : Matches .eos s s.length s.length
  | char {s : Str} {i : Nat} {c : Char} :
      s.get? i = some c → Matches (.char c) s i (i + 1)
  | cls {s : Str} {i : Nat} {p : Char → Bool} {c : Char} :
      s.get? i = some c → p c = true → Matches (.cls p) s i (i + 1)
  | concat {r₁ r₂ : Regex} {s : Str} {i j k : Nat} :
      Matches r₁ s i j → Matches r₂ s j k → Matches (.concat r₁ r₂) s i k
  | altL {r₁ r₂ : Regex} {s : Str} {i j : Nat} :
      Matches r₁ s i j → Matches (.alt r₁ r₂) s i j
  | altR {r₁ r₂ : Regex} {s : Str} {i j : Nat} :
      Matches r₂ s i j → Matches (.alt r₁ r₂) s i j
  | starNil {r : Regex} {s : Str} {i : Nat} : i ≤ s.length → Matches (.star r) s i i
  | starCons {r : Regex} {s : Str} {i j k : Nat} :
      Matches r s i j → Matches (.star r) s j k → Matches (.star r) s i k
  | group {r : Regex} {s : Str} {i j : Nat} :
      Matches r s i j → Matches (.group r) s i j

/-- `RegExp.prototype.exec` returns a non-null result exactly when the regex
matches some slice of the input (JavaScript `exec` scans for a match starting
at any position). -/
def execSucceeds (r : Regex) (s : Str) : Prop := ∃ i j, Matches r s i j

/-- Prepending the anchor `^` to a pattern string: JavaScript alternation `|`
has the lowest precedence, so the anchor attaches only to the leftmost
top-level alternative. -/
def bosLeft : Regex → Regex
  | .alt r₁ r₂ => .alt (bosLeft r₁) r₂
  | r => .concat .bos r

/-- Appending the anchor `$` to a pattern string: it attaches only to the
rightmost top-level alternative. -/
def eosRight : Regex → Regex
  | .alt r₁ r₂ => .alt r₁ (eosRight r₂)
  | r => .concat r .eos

/-- The route registration decorator concatenates strings and compiles
`new RegExp("^" + pattern + "$")`. Because `|` has the lowest precedence,
`^a|b$` is `(^a)|(b$)`, not `^(?:a|b)$`: the anchors attach to the outermost
alternatives only; a pattern without top-level alternation is anchored at
both ends. -/
def anchored (p : Regex) : Regex := eosRight (bosLeft p)

/-- Whether the pattern's root is an alternation (a top-level `|`). -/
def isAlt : Regex → Bool
  | .alt _ _ => true
  | _ => false

/-- Literal string regex: the concatenation of its characters. -/
def lit : Str → Regex
  | [] => .eps
  | c :: cs => .concat (.char c) (lit cs)

theorem matches_bos_inv {s : Str} {i j : Nat} (h : Matches .bos s i j) :
    i = 0 ∧ j = 0 := by
  cases h with
  | bos => exact ⟨rfl, rfl⟩

theorem matches_eos_inv {s : Str} {i j : Nat} (h : Matches .eos s i j) :
    i = s.length ∧ j = s.length := by
  cases h with
  | eos => exact ⟨rfl, rfl⟩

theorem matches_eps_inv {s : Str} {i j : Nat} (h : Matches .eps s i j) :
    i = j ∧ i ≤ s.length := by
  cases h with
  | eps hle => exact ⟨rfl, hle⟩

theorem matches_char_inv {s : Str} {i j : Nat} {c : Char}
    (h : Matches (.char c) s i j) : s.get? i = some c ∧ j = i + 1 := by
  cases h with
  | char hc => exact ⟨hc, rfl⟩

theorem matches_cls_inv {s : Str} {i j : Nat} {p : Char → Bool}
    (h : Matches (.cls p) s i j) :
    j = i + 1 ∧ ∃ c, s.get? i = some c ∧ p c = true := by
  cases h with
  | cls hc hp => exact ⟨rfl, _, hc, hp⟩

theorem matches_concat_inv {r₁ r₂ : Regex} {s : Str} {i k : Nat}
    (h : Matches (.concat r₁ r₂) s i k) :
    ∃ j, Matches r₁ s i j ∧ Matches r₂ s j k := by
  cases h with
  | concat h₁ h₂ => exact ⟨_, h₁, h₂⟩

theorem matches_group_inv {r : Regex} {s : Str} {i j : Nat}
    (h : Matches (.group r) s i j) : Matches r s i j := by
  cases h with
  | group h => exact h

/-- For a pattern without top-level alternation, the compiled `^p$` is the
whole pattern between both anchors. -/
theorem anchored_eq_of_not_alt (p : Regex) (hp : isAlt p = false) :
    anchored p = .concat (.concat .bos p) .eos := by
  cases p <;> first | rfl | simp [isAlt] at hp

/-- Core of the anchoring argument: `exec` on a fully anchored pattern
succeeds exactly when the whole input matches `p`. -/
theorem execSucceeds_full_anchor_iff (p : Regex) (s : Str) :
    execSucceeds (.concat (.concat .bos p) .eos) s ↔ Matches p s 0 s.length := by
  constructor
  · rintro ⟨i, j, h⟩
    rcases matches_concat_inv h with ⟨j₂, hleft, heos⟩
    rcases matches_concat_inv hleft with ⟨j₁, hbos, hp⟩
    rcases matches_bos_inv hbos with ⟨hi, hj₁⟩
    rcases matches_eos_inv heos with ⟨hj₂, _⟩
    subst hi; subst hj₁; subst hj₂
    exact hp
  · intro h
    exact ⟨0, s.length, .concat (.concat .bos h) .eos⟩

/-- For an alternation-free pattern, `exec` on the registered `^p$` succeeds
exactly when the whole input matches `p`. -/
theorem execSucceeds_anchored_iff (p : Regex) (s : Str) (hp : isAlt p = false) :
    execSucceeds (anchored p) s ↔ Matches p s 0 s.length := by
  rw [anchored_eq_of_not_alt p hp]
  exact execSucceeds_full_anchor_iff p s

/-- Every position covered by a star of a character class holds a character of
that class. -/
theorem star_cls_chars {p : Char → Bool} {s : Str} {r : Regex} {i j : Nat}
    (h : Matches r s i j) (hr : r = .star (.cls p)) :
    i ≤ j ∧ ∀ k, i ≤ k → k < j → ∃ c, s.get? k = some c ∧ p c = true := by
  induction h with
  | eps _ => exact absurd hr (by intro h; cases h)
  | bos => exact absurd hr (by intro h; cases h)
  | eos => exact absurd hr (by intro h; cases h)
  | char _ => exact absurd hr (by intro h; cases h)
  | cls _ _ => exact absurd hr (by intro h; cases h)
  | concat _ _ _ _ => exact absurd hr (by intro h; cases h)
  | altL _ _ => exact absurd hr (by intro h; cases h)
  | altR _ _ => exact absurd hr (by intro h; cases h)
  | group _ _ => exact absurd hr (by intro h; cases h)
  | starNil _ =>
    refine ⟨Nat.le_refl _, fun k hk1 hk2 => absurd (Nat.lt_of_le_of_lt hk1 hk2) (Nat.lt_irrefl _)⟩
  | starCons h₁ h₂ ih₁ ih₂ =>
    have hre : _ = Regex.cls p := Regex.star.inj hr
    subst hre
    rcases matches_cls_inv h₁ with ⟨hj, c, hc, hpc⟩
    subst hj
    rcases ih₂ rfl with ⟨hle, cov⟩
    refine ⟨Nat.le_trans (Nat.le_succ _) hle, fun k hk1 hk2 => ?_⟩
    rcases Nat.eq_or_lt_of_le hk1 with he | hlt
    · exact ⟨c, he ▸ hc, hpc⟩
    · exact cov k hlt hk2

/-- A literal regex matches exactly its own characters. -/
theorem matches_lit_inv {cs : Str} {s : Str} {i j : Nat}
    (h : Matches (lit cs) s i j) :
    j = i + cs.length ∧ ∀ k, k < cs.length → s.get? (i + k) = cs.get? k := by
  induction cs generalizing i with
  | nil =>
    rcases matches_eps_inv h with ⟨hij, _⟩
    exact ⟨hij.symm, fun k hk => absurd hk (Nat.not_lt_zero k)⟩
  | cons c cs ih =>
    rcases matches_concat_inv h with ⟨m, hc, hrest⟩
    rcases matches_char_inv hc with ⟨hget, hm⟩
    subst hm
    rcases ih hrest with ⟨hj, hchars⟩
    constructor
    · simp only [List.length_cons]
      omega
    · intro k hk
      cases k with
      | zero => simpa using hget
      | succ k =>
        have := hchars k (by simpa using hk)
        have harith : i + 1 + k = i + (k + 1) := by omega
        simpa [harith] using this

/-- The path pattern `/items/([0-9]+)` from the specification, as compiled:
seven literal characters followed by a capturing group of one-or-more digits
(`x+` is `x` followed by `x*`). -/
def itemsPattern : Regex :=
  .concat (lit ("/items/".toList))
    (.group (.concat (.cls Char.isDigit) (.star (.cls Char.isDigit))))

/-- The anchored pattern `^/items/([0-9]+)$` rejects the longer path
`/items/12/extra`: a partial-path match never succeeds. -/
theorem no_partial_path_match :
    ¬ execSucceeds (anchored itemsPattern) ("/items/12/extra".toList) := by
  intro h
  have hm := (execSucceeds_anchored_iff itemsPattern _ rfl).mp h
  have hlen : ("/items/12/extra".toList).length = 15 := by decide
  rw [hlen] at hm
  rcases matches_concat_inv hm with ⟨j₁, hlit, hgrp⟩
  rcases matches_lit_inv hlit with ⟨hj₁, _⟩
  have hj₁' : j₁ = 7 := by simpa using hj₁
  subst hj₁'
  have hplus := matches_group_inv hgrp
  rcases matches_concat_inv hplus with ⟨j₂, hd, hstar⟩
  rcases matches_cls_inv hd with ⟨hj₂, _⟩
  subst hj₂
  rcases star_cls_chars hstar rfl with ⟨_, cov⟩
  rcases cov 9 (by omega) (by omega) with ⟨c, hc, hdig⟩
  have hc9 : ("/items/12/extra".toList).get? 9 = some '/' := by decide
  rw [hc9] at hc
  cases hc
  exact absurd hdig (by decide)

/-! ## Data model of the framework -/

/-- JSON values, as produced by the external `JSON.parse` and by the GraphQL
executor. Only the shape matters here; serialization (`JSON.stringify`) and
parsing (`JSON.parse`) are external builtins passed in as functions. -/
inductive Json : Type where
  | null : Json
  | bool : Bool → Json
  | num : Int → Json
  | str : Str → Json
  | arr : List Json → Json
  | obj : List (Str × Json) → Json

/-- The GraphQL query object `{query, operationName?, variables?}` that
`getGraphQLQuery` resolves (`vars` embeds the source field `variables`,
which is a reserved word in Lean). -/
structure GraphQLQuery : Type where
  query : Str
  operationName : Option Str
  vars : Option Json

/-- The `HTTPRequest` wrapper (`class HTTPRequest`): method, parsed URL path,
query parameters (`URLSearchParams`), headers, and the single-use body readers
(already-read body values: `request.json()` may throw, embedded as `Except`;
the unchecked cast of the JSON body to the query shape is part of the
collaborator). -/
structure HTTPRequest : Type where
  method : Str
  pathname : Str
  queryParams : List (Str × Str)
  headers : List (Str × Str)
  jsonBody : Except Str GraphQLQuery
  textBody : Str

/-- `URLSearchParams.prototype.get`: first value bound to the name, else null. -/
def queryGet (req : HTTPRequest) (name : Str) : Option Str :=
  objGet req.queryParams name

/-- `Headers.prototype.get`: the header value or null. -/
def headerGet (req : HTTPRequest) (name : Str) : Option Str :=
  objGet req.headers name

/-- `class Route`: an HTTP method (lowercased by the constructor), a compiled
pattern and the handler property name. -/
structure Route : Type where
  method : Str
  pattern : Regex
  handler : Str

/-- The `Route` constructor: `this.method = this.method.toLowerCase()`. -/
def Route.make (method : Str) (pattern : Regex) (handler : Str) : Route :=
  { method := toLowerStr method, pattern := pattern, handler := handler }

/-- The method comparison performed by `Route.match`:
`request.method.toLowerCase() !== this.method` decides rejection. -/
def Route.methodOk (r : Route) (req : HTTPRequest) : Bool :=
  toLowerStr req.method == r.method

/-- `Route.match` returns a non-null result iff the method comparison passes
and `this.pattern.exec(request.url.pathname)` finds a match. -/
def Route.matchSucceeds (r : Route) (req : HTTPRequest) : Prop :=
  r.methodOk req = true ∧ execSucceeds r.pattern req.pathname

/-- `Application.method name pattern` registers
`new Route(name, new RegExp("^" + pattern + "$"), property)` by pushing it at
the end of the route registry. -/
def registerRoute (name : Str) (pattern : Regex) (property : Str)
    (registry : List Route) : List Route :=
  registry ++ [Route.make name (anchored pattern) property]

/-- Response body variants of the `HTTPResponse` descriptor: exactly one of
`json`, `text`, `html`, `stream`, or no body. -/
inductive Body : Type where
  | json : Json → Body
  | text : Str → Body
  | html : Str → Body
  | stream : Str → Body
  | empty : Body

/-- The `HTTPResponse` descriptor handlers return: optional status, optional
headers map, and a body variant. -/
structure HTTPResponse : Type where
  status : Option Nat
  headers : Option (List (Str × Str))
  body : Body

/-- The transport-level response built by `new Response(response, {status, headers})`. -/
structure EncodedResponse : Type where
  status : Nat
  body : Str
  headers : List (Str × Str)

/-- The `"content-type"` header key. -/
def ctKey : Str := "content-type".toList

/-- `Application.encodeResponse`: take the descriptor's headers object (or a
fresh one), default the status to 200, then check for a `json`, `text`,
`html`, or `stream` body, assigning the corresponding content-type into the
headers object. `stringify` is the external `JSON.stringify`. -/
def encodeResponse (stringify : Json → Str) (r : HTTPResponse) : EncodedResponse :=
  let headers0 := r.headers.getD []
  let status := r.status.getD 200
  match r.body with
  | .json v =>
      { status := status, body := stringify v,
        headers := objSet headers0 ctKey ("application/json".toList) }
  | .text s =>
      { status := status, body := s,
        headers := objSet headers0 ctKey ("text/plain".toList) }
  | .html s =>
      { status := status, body := s,
        headers := objSet headers0 ctKey ("text/html".toList) }
  | .stream s =>
      { status := status, body := s, headers := headers0 }
  | .empty =>
      { status := status, body := [], headers := headers0 }

/-- Default 404 handler (`Application.handleNotFound`). -/
def handleNotFound (_ : HTTPRequest) : HTTPResponse :=
  { status := some 404, headers := none, body := .text ("404 not found".toList) }

/-- Default 500 handler (`Application.handleInternalError`). -/
def handleInternalError (_ : HTTPRequest) : HTTPResponse :=
  { status := some 500, headers := none, body := .text ("500 internal error".toList) }

/-- `fileName.lastIndexOf "."`: index of the last dot, if any. -/
def lastIndexOfChar (c : Char) (s : Str) : Option Nat :=
  ((List.range s.length).filter (fun i => s.get? i == some c)).getLast?

/-- The own-property extension table of `Application.inferContentType`
(`hasOwnProperty` excludes inherited keys such as `"toString"`). -/
def contentTypeMap : List (Str × Str) :=
  [("json".toList, "application/json".toList),
   ("js".toList, "application/javascript".toList),
   ("html".toList, "text/html".toList),
   ("css".toList, "text/css".toList),
   ("txt".toList, "text/html".toList)]

/-- `Application.inferContentType`: look up the substring after the last dot
in the extension table; unknown or missing extension gives
`application/octet-stream`. -/
def inferContentType (fileName : Str) : Str :=
  match lastIndexOfChar '.' fileName with
  | some dotIndex =>
      match objGet contentTypeMap (fileName.drop (dotIndex + 1)) with
      | some t => t
      | none => "application/octet-stream".toList
  | none => "application/octet-stream".toList

/-! ## Request dispatch -/

/-- An application: the prototype's route registry (populated in registration
order by the decorators) together with the handler methods, resolved by
property name. A handler may return a response or throw. -/
structure App : Type where
  routes : List Route
  handlers : Str → HTTPRequest → Except Str HTTPResponse

/-- The scan of `handleRequest`'s `for` loop: `FirstMatch req l o` holds when
scanning `l` in order selects `o` — the first route whose `match` returns
non-null, or `none` when no route matches. -/
inductive FirstMatch (req : HTTPRequest) : List Route → Option Route → Prop where
  | nil : FirstMatch req [] none
  | hit {r : Route} {rest : List Route} :
      r.matchSucceeds req → FirstMatch req (r :: rest) (some r)
  | miss {r : Route} {rest : List Route} {o : Option Route} :
      ¬ r.matchSucceeds req → FirstMatch req rest o → FirstMatch req (r :: rest) o

/-- What `handleRequest` does with the scan result: no match encodes the
default 404; a match invokes the route's handler inside `try`/`catch`, so a
thrown error is logged (second component) and downgraded to the default 500
response — never re-thrown. -/
def processMatch (stringify : Json → Str) (app : App) (req : HTTPRequest) :
    Option Route → EncodedResponse × List Str
  | none => (encodeResponse stringify (handleNotFound req), [])
  | some r =>
      match app.handlers r.handler req with
      | .ok resp => (encodeResponse stringify resp, [])
      | .error e => (encodeResponse stringify (handleInternalError req), [e])

/-- `Application.handleRequest` on an already-wrapped request: scan the
registry in registration order and process the first match. The outcome is a
transport response plus the list of logged errors. -/
def HandleRequest (stringify : Json → Str) (app : App) (req : HTTPRequest)
    (out : EncodedResponse × List Str) : Prop :=
  ∃ o, FirstMatch req app.routes o ∧ out = processMatch stringify app req o

/-! ## GraphQL adapter -/

/-- The `x || undefined` coercion applied to `URLSearchParams.get` results:
null stays absent and the falsy empty string becomes undefined. -/
def orUndefined : Option Str → Option Str
  | none => none
  | some s => if s.isEmpty then none else some s

/-- `Application.getGraphQLQuery`. For GET, read `query`, `operationName` and
`variables` from the query parameters; a missing `query` or a `variables`
value on which `JSON.parse` throws resolves to no query (the `try`/`catch`
swallows the parse error). For POST, branch on `content-type`:
`application/json` parses the body (a throw from `request.json()`
propagates), `application/graphql` takes the raw text body as the query.
Anything else resolves to no query. `parseJson` is the external `JSON.parse`
(`none` = throws). -/
def getGraphQLQuery (parseJson : Str → Option Json) (req : HTTPRequest) :
    Except Str (Option GraphQLQuery) :=
  if toLowerStr req.method = "get".toList then
    let query := queryGet req ("query".toList)
    let operationName := orUndefined (queryGet req ("operationName".toList))
    let vars := orUndefined (queryGet req ("variables".toList))
    match query with
    | none => .ok none
    | some q =>
        match vars with
        | none => .ok (some { query := q, operationName := operationName, vars := none })
        | some v =>
            match parseJson v with
            | some j => .ok (some { query := q, operationName := operationName, vars := some j })
            | none => .ok none
  else if toLowerStr req.method = "post".toList then
    match headerGet req ("content-type".toList) with
    | some ct =>
        if ct = "application/json".toList then
          match req.jsonBody with
          | .ok g => .ok (some g)
          | .error e => .error e
        else if ct = "application/graphql".toList then
          .ok (some { query := req.textBody, operationName := none, vars := none })
        else .ok none
    | none => .ok none
  else .ok none

/-- The 400 response `{status: 400, text: "400 bad request"}`. -/
def badRequestResponse : HTTPResponse :=
  { status := some 400, headers := none, body := .text ("400 bad request".toList) }

/-- `Application.handleGraphQLRequest`: resolve the query; no query gives the
400 plain-text response, otherwise delegate to the external executor and wrap
its result as a JSON response (no explicit status). `exec` is the external
`graphql(schema, source, undefined, undefined, variables, operationName)`. -/
def handleGraphQLRequest {Schema : Type} (parseJson : Str → Option Json)
    (exec : Schema → Str → Option Json → Option Str → Json)
    (schema : Schema) (req : HTTPRequest) : Except Str HTTPResponse :=
  match getGraphQLQuery parseJson req with
  | .error e => .error e
  | .ok none => .ok badRequestResponse
  | .ok (some g) =>
      .ok { status := none, headers := none,
            body := .json (exec schema g.query g.vars g.operationName) }

/-! ## CookieJar -/

/-- `String.prototype.trim` on a segment. -/
def trimStr (s : Str) : Str :=
  ((s.dropWhile Char.isWhitespace).reverse.dropWhile Char.isWhitespace).reverse

/-- The value stored for a parsed cookie segment: the component after the
first `=`, if the segment had one (`undefined` otherwise). -/
abbrev CookieVal := Option Str

/-- The components of one cookie segment: `c.trim().split("=").map(decodeURIComponent)`. -/
def cookieComps (decode : Str → Str) (c : Str) : List Str :=
  ((trimStr c).splitOn '=').map decode

/-- The destructured `key` of a segment: the first component (`split` never
returns an empty array). -/
def cookieKey (decode : Str → Str) (c : Str) : Str :=
  (cookieComps decode c).headD []

/-- The destructured `val` of a segment: the second component, undefined when
the segment has no `=`. -/
def cookieVal (decode : Str → Str) (c : Str) : CookieVal :=
  (cookieComps decode c).get? 1

/-- The `CookieJar` constructor: split the raw header on `;`, trim each
segment, split it on `=`, URL-decode every component, and destructure the
first two as key and value (`val` is undefined when there is no `=`); each
pair is assigned into the jar left to right. `decode` is the external
`decodeURIComponent`. -/
def cookieParse (decode : Str → Str) (cookie : Str) : List (Str × CookieVal) :=
  (cookie.splitOn ';').foldl
    (fun res c => objSet res (cookieKey decode c) (cookieVal decode c))
    []

/-- `encodeURIComponent` applied to a stored value: JavaScript stringifies the
value first, so an undefined value becomes the string `"undefined"`. -/
def encodeVal (encode : Str → Str) : CookieVal → Str
  | some v => encode v
  | none => encode ("undefined".toList)

/-- `CookieJar.prototype.toString`: URL-encode every own key and value, join
each pair with `=` and the pairs with `;`. `encode` is the external
`encodeURIComponent`. -/
def cookieToString (encode : Str → Str) (jar : List (Str × CookieVal)) : Str :=
  List.intercalate ([';']) (jar.map (fun p => encode p.1 ++ '=' :: encodeVal encode p.2))

/-! ## Dispatch lemmas -/

/-- If a route in the scanned list matches, the scan selects a matching route
at or before its position. -/
theorem firstMatch_before {req : HTTPRequest} (l1 : List Route) (r1 : Route)
    (rest : List Route) (o : Option Route)
    (h : FirstMatch req (l1 ++ r1 :: rest) o) (h1 : r1.matchSucceeds req) :
    ∃ r, r ∈ l1 ++ [r1] ∧ r.matchSucceeds req ∧ o = some r := by
  induction l1 with
  | nil =>
    cases h with
    | hit hm => exact ⟨r1, by simp, h1, rfl⟩
    | miss hm hrest => exact absurd h1 hm
  | cons x l1 ih =>
    cases h with
    | hit hm => exact ⟨x, by simp, hm, rfl⟩
    | miss hm hrest =>
      rcases ih hrest with ⟨r, hmem, hms, ho⟩
      exact ⟨r, List.mem_cons_of_mem x hmem, hms, ho⟩

/-- If nothing before a matching route matches, the scan selects exactly that
route. -/
theorem firstMatch_first {req : HTTPRequest} (l1 : List Route) {r1 : Route}
    {rest : List Route} {o : Option Route}
    (h0 : ∀ r' ∈ l1, ¬ r'.matchSucceeds req) (h1 : r1.matchSucceeds req)
    (h : FirstMatch req (l1 ++ r1 :: rest) o) : o = some r1 := by
  induction l1 with
  | nil =>
    cases h with
    | hit hm => rfl
    | miss hm hrest => exact absurd h1 hm
  | cons x l1 ih =>
    cases h with
    | hit hm => exact absurd hm (h0 x (by simp))
    | miss hm hrest =>
      exact ih (fun r' hr' => h0 r' (List.mem_cons_of_mem x hr')) hrest

/-- C1: for a registry containing `r1` before `r2`, both matching the request,
`handleRequest` processes the first matching route of the scan — a route at or
before `r1`'s position, so never `r2` — and when no route before `r1` matches,
it invokes exactly `r1`'s handler (dispatch scans in registration order and
stops at the first match). -/
theorem handleRequest_first_registered_wins
    (stringify : Json → Str) (app : App) (req : HTTPRequest)
    (l1 l2 l3 : List Route) (r1 r2 : Route)
    (out : EncodedResponse × List Str)
    (hroutes : app.routes = l1 ++ r1 :: (l2 ++ r2 :: l3))
    (h1 : r1.matchSucceeds req) (h2 : r2.matchSucceeds req)
    (hout : HandleRequest stringify app req out) :
    (∃ r, r ∈ l1 ++ [r1] ∧ r.matchSucceeds req ∧
        out = processMatch stringify app req (some r)) ∧
    ((∀ r' ∈ l1, ¬ r'.matchSucceeds req) →
        out = processMatch stringify app req (some r1)) := by
  rcases hout with ⟨o, hfm, hpo⟩
  rw [hroutes] at hfm
  constructor
  · rcases firstMatch_before l1 r1 _ o hfm h1 with ⟨r, hmem, hms, ho⟩
    exact ⟨r, hmem, hms, by rw [hpo, ho]⟩
  · intro h0
    rw [hpo, firstMatch_first l1 h0 h1 hfm]

def w1Route1 : Route := Route.make ("get".toList) (anchored (lit [])) ("h1".toList)

def w1Route2 : Route := Route.make ("get".toList) (anchored (lit [])) ("h2".toList)

def w1Req : HTTPRequest :=
  { method := "get".toList, pathname := [], queryParams := [], headers := [],
    jsonBody := .error [], textBody := [] }

def w1App : App :=
  { routes := [w1Route1, w1Route2],
    handlers := fun _ _ => .ok { status := none, headers := none, body := .empty } }

theorem w1Route1_matches : w1Route1.matchSucceeds w1Req :=
  ⟨rfl, 0, 0, .concat (.concat .bos (.eps (Nat.le_refl 0))) .eos⟩

theorem w1Route2_matches : w1Route2.matchSucceeds w1Req :=
  ⟨rfl, 0, 0, .concat (.concat .bos (.eps (Nat.le_refl 0))) .eos⟩

def w1Out : EncodedResponse × List Str :=
  processMatch (fun _ => []) w1App w1Req (some w1Route1)

/-- Witness for C1 at a concrete two-route application. -/
theorem handleRequest_first_registered_wins_witness :
    (∃ r, r ∈ ([] : List Route) ++ [w1Route1] ∧ r.matchSucceeds w1Req ∧
        w1Out = processMatch (fun _ => []) w1App w1Req (some r)) ∧
    ((∀ r' ∈ ([] : List Route), ¬ r'.matchSucceeds w1Req) →
        w1Out = processMatch (fun _ => []) w1App w1Req (some w1Route1)) :=
  handleRequest_first_registered_wins (fun _ => []) w1App w1Req [] [] [] w1Route1 w1Route2
    w1Out rfl w1Route1_matches w1Route2_matches
    ⟨some w1Route1, .hit w1Route1_matches, rfl⟩

/-- C2: when the first matching route's handler throws, `handleRequest`
returns the default internal-error response — status 500, plain-text body
`"500 internal error"` — with the thrown error logged (and only logged: the
outcome is a response, never a re-thrown error, and the body is the fixed
string, independent of the error). -/
theorem handler_throw_gives_500
    (stringify : Json → Str) (app : App) (req : HTTPRequest)
    (l1 rest : List Route) (r : Route) (e : Str)
    (out : EncodedResponse × List Str)
    (hroutes : app.routes = l1 ++ r :: rest)
    (hskip : ∀ r' ∈ l1, ¬ r'.matchSucceeds req)
    (hm : r.matchSucceeds req)
    (herr : app.handlers r.handler req = .error e)
    (hout : HandleRequest stringify app req out) :
    out.1.status = 500 ∧ out.1.body = "500 internal error".toList ∧
    objGet out.1.headers ctKey = some ("text/plain".toList) ∧ out.2 = [e] := by
  rcases hout with ⟨o, hfm, hpo⟩
  rw [hroutes] at hfm
  rw [hpo, firstMatch_first l1 hskip hm hfm]
  refine ⟨?_, ?_, ?_, ?_⟩ <;>
    simp [processMatch, herr, encodeResponse, handleInternalError, objSet, objGet_cons]

def w2App : App :=
  { routes := [w1Route1],
    handlers := fun _ _ => .error ("boom".toList) }

def w2Out : EncodedResponse × List Str :=
  processMatch (fun _ => []) w2App w1Req (some w1Route1)

/-- Witness for C2: a throwing handler at a concrete application. -/
theorem handler_throw_gives_500_witness :
    w2Out.1.status = 500 ∧ w2Out.1.body = "500 internal error".toList ∧
    objGet w2Out.1.headers ctKey = some ("text/plain".toList) ∧
    w2Out.2 = ["boom".toList] :=
  handler_throw_gives_500 (fun _ => []) w2App w1Req [] [] w1Route1 ("boom".toList)
    w2Out rfl (by intro r' hr'; cases hr') w1Route1_matches rfl
    ⟨some w1Route1, .hit w1Route1_matches, rfl⟩

/-! ## Route matching claims -/

/-- The pattern `/a|/b` with a top-level alternation, as the registration
functions would compile it. -/
def altPattern : Regex := .alt (lit ("/a".toList)) (lit ("/b".toList))

def altReq : HTTPRequest :=
  { method := "get".toList, pathname := "/a/extra".toList, queryParams := [],
    headers := [], jsonBody := .error [], textBody := [] }

/-- Counterexample to C4 as stated: JavaScript `|` has the lowest precedence,
so registering the pattern `/a|/b` compiles `^/a|/b$`, i.e. `(^/a)|(/b$)`;
the resulting route matches the partial path `/a/extra` even though that
path does not fully match the pattern. -/
theorem partial_path_match_with_alternation :
    (Route.make ("get".toList) (anchored altPattern) ("h".toList)).matchSucceeds altReq ∧
    ¬ Matches altPattern altReq.pathname 0 altReq.pathname.length := by
  constructor
  · exact ⟨rfl, 0, 2,
      .altL (.concat .bos (.concat (.char rfl) (.concat (.char rfl) (.eps (by decide)))))⟩
  · intro h
    have hlen : altReq.pathname.length = 8 := by decide
    rw [hlen] at h
    cases h with
    | altL h₁ =>
      rcases matches_lit_inv h₁ with ⟨hj, _⟩
      exact absurd hj (by decide)
    | altR h₂ =>
      rcases matches_lit_inv h₂ with ⟨hj, _⟩
      exact absurd hj (by decide)

/-- C4 (amended): registration appends a route compiled from `"^"+p+"$"`; for
a pattern `p` without top-level alternation this anchors the whole pattern,
and such a route's `match` succeeds exactly when the method check passes and
the whole request path matches `p`; concretely, the anchored
`/items/([0-9]+)` never matches the longer path `/items/12/extra`. (With a
top-level alternation the anchors attach only to the outermost alternatives
and a partial-path match can succeed.) -/
theorem registered_route_match_iff_full_match
    (m property : Str) (p : Regex) (reg : List Route) (req : HTTPRequest)
    (hp : isAlt p = false) :
    registerRoute m p property reg = reg ++ [Route.make m (anchored p) property] ∧
    ((Route.make m (anchored p) property).matchSucceeds req ↔
      ((Route.make m (anchored p) property).methodOk req = true ∧
        Matches p req.pathname 0 req.pathname.length)) ∧
    ¬ execSucceeds (anchored itemsPattern) ("/items/12/extra".toList) := by
  refine ⟨rfl, ?_, no_partial_path_match⟩
  constructor
  · rintro ⟨hok, hexec⟩
    exact ⟨hok, (execSucceeds_anchored_iff p _ hp).mp hexec⟩
  · rintro ⟨hok, hfull⟩
    exact ⟨hok, (execSucceeds_anchored_iff p _ hp).mpr hfull⟩

def w4Req : HTTPRequest :=
  { method := "get".toList, pathname := "/a".toList, queryParams := [], headers := [],
    jsonBody := .error [], textBody := [] }

/-- Witness for the amended C4: the registered alternation-free route `get /a`
matches the request path `/a` via the full-match characterization. -/
theorem registered_route_match_iff_full_match_witness :
    (Route.make ("get".toList) (anchored (lit ("/a".toList))) ("h".toList)).matchSucceeds w4Req :=
  (registered_route_match_iff_full_match ("get".toList) ("h".toList)
      (lit ("/a".toList)) [] w4Req rfl).2.1.mpr
    ⟨rfl, .concat (.char rfl) (.concat (.char rfl) (.eps (by decide)))⟩

/-- C5: the method comparison of `Route.match` is case-insensitive on both
sides — a route whose registered method lowercases to `"post"` accepts the
request methods `"post"`, `"POST"` and `"PoSt"`, and rejects `"GET"` (so
`match` fails outright for `"GET"`). -/
theorem route_method_case_insensitive
    (m : Str) (pat : Regex) (property : Str) (req : HTTPRequest)
    (hm : toLowerStr m = "post".toList) :
    ((req.method = "post".toList ∨ req.method = "POST".toList ∨ req.method = "PoSt".toList) →
      (Route.make m pat property).methodOk req = true) ∧
    (req.method = "GET".toList →
      (Route.make m pat property).methodOk req = false ∧
      ¬ (Route.make m pat property).matchSucceeds req) := by
  constructor
  · rintro (h | h | h) <;>
      simp [Route.methodOk, Route.make, h, hm] <;> decide
  · intro h
    have hok : (Route.make m pat property).methodOk req = false := by
      simp [Route.methodOk, Route.make, h, hm]
      decide
    refine ⟨hok, ?_⟩
    rintro ⟨hok', _⟩
    rw [hok] at hok'
    cases hok'

def w5ReqPoSt : HTTPRequest :=
  { method := "PoSt".toList, pathname := [], queryParams := [], headers := [],
    jsonBody := .error [], textBody := [] }

def w5ReqGET : HTTPRequest :=
  { method := "GET".toList, pathname := [], queryParams := [], headers := [],
    jsonBody := .error [], textBody := [] }

/-- Witness for C5 at a route registered with method `"POST"`. -/
theorem route_method_case_insensitive_witness :
    (Route.make ("POST".toList) Regex.eps ("h".toList)).methodOk w5ReqPoSt = true ∧
    (Route.make ("POST".toList) Regex.eps ("h".toList)).methodOk w5ReqGET = false :=
  ⟨(route_method_case_insensitive ("POST".toList) Regex.eps ("h".toList) w5ReqPoSt
      (by decide)).1 (Or.inr (Or.inr rfl)),
   ((route_method_case_insensitive ("POST".toList) Regex.eps ("h".toList) w5ReqGET
      (by decide)).2 rfl).1⟩

/-! ## Content-type inference -/

theorem objGet_eq_none_of_not_mem {β : Type} (o : List (Str × β)) (k : Str)
    (h : k ∉ objKeys o) : objGet o k = none := by
  induction o with
  | nil => rfl
  | cons p o ih =>
    have hpk : ¬ (p.1 == k) = true := by
      intro he
      exact h (by simp [objKeys, (by simpa using he : p.1 = k)])
    have hmem : k ∉ objKeys o := by
      intro hmm
      exact h (by simp [objKeys, hmm])
    simp [objGet_cons, hpk, ih hmem]

/-- C10: a filename whose extension is `txt` gets content type `text/html`
(not `text/plain`), and any extension outside the five-entry own-property
table — including inherited property names such as `toString` — gets
`application/octet-stream`. -/
theorem inferContentType_txt_and_unknown :
    (∀ (name : Str) (i : Nat), lastIndexOfChar '.' name = some i →
        name.drop (i + 1) = "txt".toList →
        inferContentType name = "text/html".toList ∧
        inferContentType name ≠ "text/plain".toList) ∧
    (∀ (name : Str) (i : Nat), lastIndexOfChar '.' name = some i →
        name.drop (i + 1) ∉ objKeys contentTypeMap →
        inferContentType name = "application/octet-stream".toList) ∧
    inferContentType ("x.toString".toList) = "application/octet-stream".toList := by
  refine ⟨?_, ?_, by decide⟩
  · intro name i hlast hsuf
    unfold inferContentType
    rw [hlast]
    dsimp only
    rw [hsuf]
    exact ⟨by decide, by decide⟩
  · intro name i hlast hsuf
    unfold inferContentType
    rw [hlast]
    dsimp only
    rw [objGet_eq_none_of_not_mem _ _ hsuf]

/-- Witness for C10 at the filenames `a.txt` and `a.gz`. -/
theorem inferContentType_txt_and_unknown_witness :
    (inferContentType ("a.txt".toList) = "text/html".toList ∧
      inferContentType ("a.txt".toList) ≠ "text/plain".toList) ∧
    inferContentType ("a.gz".toList) = "application/octet-stream".toList :=
  ⟨inferContentType_txt_and_unknown.1 ("a.txt".toList) 1 (by decide) (by decide),
   inferContentType_txt_and_unknown.2.1 ("a.gz".toList) 1 (by decide) (by decide)⟩

/-! ## Cookie parsing lemmas -/

/-- A string fit to appear as a raw cookie key or value component: no
separator characters and no whitespace. -/
def cleanComp (x : Str) : Prop :=
  ∀ c ∈ x, c ≠ ';' ∧ c ≠ '=' ∧ c.isWhitespace = false

instance (x : Str) : Decidable (cleanComp x) :=
  inferInstanceAs (Decidable (∀ c ∈ x, c ≠ ';' ∧ c ≠ '=' ∧ c.isWhitespace = false))

theorem dropWhile_eq_self_of_all {p : Char → Bool} (x : Str)
    (h : ∀ c ∈ x, p c = false) : x.dropWhile p = x := by
  cases x with
  | nil => rfl
  | cons c t => simp [List.dropWhile, h c (by simp)]

theorem trimStr_of_clean (x : Str) (h : ∀ c ∈ x, c.isWhitespace = false) :
    trimStr x = x := by
  unfold trimStr
  rw [dropWhile_eq_self_of_all x h,
    dropWhile_eq_self_of_all x.reverse (fun c hc => h c (by simpa using hc)),
    List.reverse_reverse]

theorem splitOn_eq_single (x : Str) (sep : Char) (h : sep ∉ x) :
    x.splitOn sep = [x] := by
  apply List.splitOnP_eq_single
  intro c hc hbeq
  exact h ((by simpa using hbeq : c = sep) ▸ hc)

theorem splitOn_append_cons (a : Str) (sep : Char) (b : Str) (ha : sep ∉ a) :
    (a ++ sep :: b).splitOn sep = a :: b.splitOn sep := by
  apply List.splitOnP_first
  · intro c hc hbeq
    exact ha ((by simpa using hbeq : c = sep) ▸ hc)
  · simp

theorem splitOn_pair (a b : Str) (sep : Char) (ha : sep ∉ a) (hb : sep ∉ b) :
    (a ++ sep :: b).splitOn sep = [a, b] := by
  rw [splitOn_append_cons a sep b ha, splitOn_eq_single b sep hb]

theorem splitOn_triple (a b c : Str) (sep : Char) (ha : sep ∉ a) (hb : sep ∉ b)
    (hc : sep ∉ c) :
    (a ++ sep :: (b ++ sep :: c)).splitOn sep = [a, b, c] := by
  rw [splitOn_append_cons a sep _ ha, splitOn_pair b c sep hb hc]

/-- C9: the `CookieJar` built from the empty cookie string holds exactly one
spurious entry — empty-string key, undefined value — because splitting the
empty string on `;` yields one empty segment. -/
theorem cookieParse_empty_string (decode : Str → Str) (hd : decode [] = []) :
    cookieParse decode [] = [([], (none : CookieVal))] := by
  have hsplit : ([] : Str).splitOn ';' = [[]] := List.splitOn_nil ';'
  simp [cookieParse, hsplit, cookieKey, cookieVal, cookieComps, trimStr, hd, objSet]

/-- Witness for C9 with the identity as `decodeURIComponent`. -/
theorem cookieParse_empty_string_witness :
    cookieParse id [] = [([], (none : CookieVal))] :=
  cookieParse_empty_string id rfl

/-- Counterexample to C8 as stated: parsing the segment `a=b=c` stores the
value `b` — the component between the first and second `=` — not the full
suffix `b=c` after the first `=`. -/
theorem cookieParse_not_first_equals_split :
    cookieParse id ("a=b=c".toList) = [("a".toList, some ("b".toList))] ∧
    objGet (cookieParse id ("a=b=c".toList)) ("a".toList) ≠
      some (some ("b=c".toList)) := by
  exact ⟨by rfl, by decide⟩

theorem dropWhile_append_cons {p : Char → Bool} (c : Char) (hc : p c = false)
    (k v : Str) : (k ++ c :: v).dropWhile p = k.dropWhile p ++ c :: v := by
  induction k with
  | nil => simp [List.dropWhile_cons, hc]
  | cons x t ih =>
    by_cases hx : p x = true
    · simp [List.dropWhile_cons, hx, ih]
    · simp [List.dropWhile_cons, hx]

/-- Left half of `trim`. -/
def trimL (k : Str) : Str := k.dropWhile Char.isWhitespace

/-- Right half of `trim`. -/
def trimR (v : Str) : Str := (v.reverse.dropWhile Char.isWhitespace).reverse

theorem trimStr_append_cons (k v : Str) (c : Char) (hc : c.isWhitespace = false) :
    trimStr (k ++ c :: v) = trimL k ++ c :: trimR v := by
  unfold trimStr trimL trimR
  rw [dropWhile_append_cons c hc k v]
  have h1 : (k.dropWhile Char.isWhitespace ++ c :: v).reverse =
      v.reverse ++ c :: (k.dropWhile Char.isWhitespace).reverse := by
    simp [List.reverse_append, List.reverse_cons, List.append_assoc]
  rw [h1, dropWhile_append_cons c hc v.reverse]
  simp [List.reverse_append, List.reverse_cons, List.append_assoc]

theorem mem_trimL {x : Char} {k : Str} (h : x ∈ trimL k) : x ∈ k :=
  (List.dropWhile_sublist Char.isWhitespace).subset h

theorem mem_trimR {x : Char} {v : Str} (h : x ∈ trimR v) : x ∈ v := by
  unfold trimR at h
  rw [List.mem_reverse] at h
  have h2 := (List.dropWhile_sublist Char.isWhitespace).subset h
  rwa [List.mem_reverse] at h2

theorem cookieComps_pair (decode : Str → Str) (k v : Str)
    (hk : cleanComp k) (hv : cleanComp v) :
    cookieComps decode (k ++ '=' :: v) = [decode k, decode v] := by
  unfold cookieComps
  have hWS : ∀ c ∈ k ++ '=' :: v, c.isWhitespace = false := by
    intro c hc
    rcases (by simpa using hc : c ∈ k ∨ c = '=' ∨ c ∈ v) with h | h | h
    · exact (hk c h).2.2
    · subst h; decide
    · exact (hv c h).2.2
  rw [trimStr_of_clean _ hWS,
    splitOn_pair k v '=' (fun h => ((hk '=' h).2.1 rfl).elim)
      (fun h => ((hv '=' h).2.1 rfl).elim)]
  rfl

theorem cookieComps_triple (decode : Str → Str) (a b c : Str)
    (ha : cleanComp a) (hb : cleanComp b) (hc : cleanComp c) :
    cookieComps decode (a ++ '=' :: (b ++ '=' :: c)) =
      [decode a, decode b, decode c] := by
  unfold cookieComps
  have hWS : ∀ x ∈ a ++ '=' :: (b ++ '=' :: c), x.isWhitespace = false := by
    intro x hx
    rcases (by simpa using hx : x ∈ a ∨ x = '=' ∨ x ∈ b ∨ x = '=' ∨ x ∈ c) with
      h | h | h | h | h
    · exact (ha x h).2.2
    · subst h; decide
    · exact (hb x h).2.2
    · subst h; decide
    · exact (hc x h).2.2
  rw [trimStr_of_clean _ hWS,
    splitOn_triple a b c '=' (fun h => ((ha '=' h).2.1 rfl).elim)
      (fun h => ((hb '=' h).2.1 rfl).elim) (fun h => ((hc '=' h).2.1 rfl).elim)]
  rfl

/-- C8 (amended): a segment is split on every `=`, the key is the first
component and the value the second — for `a=b=c` the stored value is `b`, the
text after the second `=` being dropped — with all components URL-decoded;
assigning a later duplicate key overwrites the earlier entry in place. -/
theorem cookieParse_segment_semantics (decode : Str → Str) :
    (∀ a b c : Str, cleanComp a → cleanComp b → cleanComp c →
      cookieParse decode (a ++ '=' :: (b ++ '=' :: c)) =
        [(decode a, some (decode b))]) ∧
    (∀ k v₁ v₂ : Str, cleanComp k → cleanComp v₁ → cleanComp v₂ →
      cookieParse decode ((k ++ '=' :: v₁) ++ ';' :: (k ++ '=' :: v₂)) =
        [(decode k, some (decode v₂))]) := by
  constructor
  · intro a b c ha hb hc
    have hs : ';' ∉ a ++ '=' :: (b ++ '=' :: c) := by
      intro hm
      rcases (by simpa using hm : ';' ∈ a ∨ ';' = '=' ∨ ';' ∈ b ∨ ';' = '=' ∨ ';' ∈ c) with
        h | h | h | h | h
      · exact (ha ';' h).1 rfl
      · cases h
      · exact (hb ';' h).1 rfl
      · cases h
      · exact (hc ';' h).1 rfl
    rw [cookieParse, splitOn_eq_single _ ';' hs]
    simp only [List.foldl_cons, List.foldl_nil]
    rw [cookieKey, cookieVal, cookieComps_triple decode a b c ha hb hc]
    rfl
  · intro k v₁ v₂ hk hv₁ hv₂
    have hseg1 : ';' ∉ k ++ '=' :: v₁ := by
      intro hm
      rcases (by simpa using hm : ';' ∈ k ∨ ';' = '=' ∨ ';' ∈ v₁) with h | h | h
      · exact (hk ';' h).1 rfl
      · cases h
      · exact (hv₁ ';' h).1 rfl
    rw [cookieParse, splitOn_append_cons _ ';' _ hseg1]
    have hseg2 : ';' ∉ k ++ '=' :: v₂ := by
      intro hm
      rcases (by simpa using hm : ';' ∈ k ∨ ';' = '=' ∨ ';' ∈ v₂) with h | h | h
      · exact (hk ';' h).1 rfl
      · cases h
      · exact (hv₂ ';' h).1 rfl
    rw [splitOn_eq_single _ ';' hseg2]
    simp only [List.foldl_cons, List.foldl_nil]
    rw [cookieKey, cookieVal, cookieComps_pair decode k v₁ hk hv₁]
    rw [cookieKey, cookieVal, cookieComps_pair decode k v₂ hk hv₂]
    simp [objSet]

/-- Witness for the amended C8 with identity decoding on `a=b=c` and on the
duplicate-key header `k=x;k=y`. -/
theorem cookieParse_segment_semantics_witness :
    cookieParse id ("a".toList ++ '=' :: ("b".toList ++ '=' :: "c".toList)) =
      [("a".toList, some ("b".toList))] ∧
    cookieParse id (("k".toList ++ '=' :: "x".toList) ++ ';' ::
        ("k".toList ++ '=' :: "y".toList)) =
      [("k".toList, some ("y".toList))] :=
  ⟨(cookieParse_segment_semantics id).1 ("a".toList) ("b".toList) ("c".toList)
      (by decide) (by decide) (by decide),
   (cookieParse_segment_semantics id).2 ("k".toList) ("x".toList) ("y".toList)
      (by decide) (by decide) (by decide)⟩

/-! ## Cookie round-trip -/

theorem objKeys_append {β : Type} (o₁ o₂ : List (Str × β)) :
    objKeys (o₁ ++ o₂) = objKeys o₁ ++ objKeys o₂ := by
  induction o₁ with
  | nil => rfl
  | cons p o₁ ih => simp [objKeys, ih]

theorem nodup_objKeys_objSet {β : Type} (o : List (Str × β)) (k : Str) (v : β)
    (h : (objKeys o).Nodup) : (objKeys (objSet o k v)).Nodup := by
  by_cases hk : k ∈ objKeys o
  · rw [objKeys_objSet_of_mem o k v hk]
    exact h
  · rw [objSet_append_of_not_mem o k v hk, objKeys_append]
    simp [List.nodup_append, h, hk, objKeys]

theorem nodup_foldl_objSet {β : Type} (keyOf : Str → Str) (valOf : Str → β) :
    ∀ (segs : List Str) (res : List (Str × β)), (objKeys res).Nodup →
      (objKeys (segs.foldl (fun r c => objSet r (keyOf c) (valOf c)) res)).Nodup := by
  intro segs
  induction segs with
  | nil => intro res h; exact h
  | cons c segs ih =>
    intro res h
    exact ih _ (nodup_objKeys_objSet res (keyOf c) (valOf c) h)

/-- A parsed cookie jar always has pairwise distinct keys. -/
theorem cookieParse_nodup (decode : Str → Str) (s : Str) :
    (objKeys (cookieParse decode s)).Nodup :=
  nodup_foldl_objSet (cookieKey decode) (cookieVal decode) (s.splitOn ';') []
    (by simp [objKeys])

theorem foldl_objSet_ne_nil {β : Type} (keyOf : Str → Str) (valOf : Str → β) :
    ∀ (segs : List Str) (res : List (Str × β)), (segs ≠ [] ∨ res ≠ []) →
      segs.foldl (fun r c => objSet r (keyOf c) (valOf c)) res ≠ [] := by
  intro segs
  induction segs with
  | nil =>
    intro res h
    rcases h with h | h
    · exact absurd rfl h
    · exact h
  | cons c segs ih =>
    intro res _
    exact ih _ (Or.inr (objSet_ne_nil res (keyOf c) (valOf c)))

/-- A parsed cookie jar is never empty. -/
theorem cookieParse_ne_nil (decode : Str → Str) (s : Str) :
    cookieParse decode s ≠ [] := by
  apply foldl_objSet_ne_nil
  left
  rw [List.splitOn]
  exact List.splitOnP_ne_nil _ _

theorem mem_objSet_val {β : Type} (P : β → Prop) (o : List (Str × β)) (k : Str)
    (v : β) (ho : ∀ p ∈ o, P p.2) (hv : P v) : ∀ p ∈ objSet o k v, P p.2 := by
  induction o with
  | nil =>
    intro p hp
    rcases (by simpa [objSet] using hp : p = (k, v)) with rfl
    exact hv
  | cons q o ih =>
    by_cases hq : (q.1 == k) = true
    · intro p hp
      rcases (by simpa [objSet, hq] using hp : p = (k, v) ∨ p ∈ o) with rfl | h
      · exact hv
      · exact ho p (by simp [h])
    · intro p hp
      rcases (by simpa [objSet, hq] using hp : p = q ∨ p ∈ objSet o k v) with rfl | h
      · exact ho p (by simp)
      · exact ih (fun p' hp' => ho p' (by simp [hp'])) p h

theorem foldl_objSet_vals {β : Type} (P : β → Prop) (keyOf : Str → Str)
    (valOf : Str → β) :
    ∀ (segs : List Str) (res : List (Str × β)), (∀ p ∈ res, P p.2) →
      (∀ c ∈ segs, P (valOf c)) →
      ∀ p ∈ segs.foldl (fun r c => objSet r (keyOf c) (valOf c)) res, P p.2 := by
  intro segs
  induction segs with
  | nil => intro res hres _ p hp; exact hres p hp
  | cons c segs ih =>
    intro res hres hsegs p hp
    refine ih _ (mem_objSet_val P res (keyOf c) (valOf c) hres (hsegs c (by simp)))
      (fun c' hc' => hsegs c' (by simp [hc'])) p hp

/-- A raw well-formed segment `k=v` (no `=` inside `k` or `v`) parses to a
defined value. -/
theorem cookieVal_wf_segment (decode : Str → Str) (k v : Str)
    (hk : '=' ∉ k) (hv : '=' ∉ v) :
    (cookieVal decode (k ++ '=' :: v)).isSome = true := by
  unfold cookieVal cookieComps
  rw [trimStr_append_cons k v '=' (by decide),
    splitOn_pair _ _ '=' (fun h => hk (mem_trimL h)) (fun h => hv (mem_trimR h))]
  rfl

theorem foldl_objSet_self {β : Type} :
    ∀ (l acc : List (Str × β)), (objKeys (acc ++ l)).Nodup →
      l.foldl (fun r p => objSet r p.1 p.2) acc = acc ++ l := by
  intro l
  induction l with
  | nil =>
    intro acc _
    simp
  | cons p l ih =>
    intro acc h
    have hnotin : p.1 ∉ objKeys acc := by
      intro hmem
      rw [objKeys_append] at h
      rcases List.nodup_append.mp h with ⟨_, _, hdisj⟩
      exact hdisj hmem (by simp [objKeys])
    simp only [List.foldl_cons]
    rw [objSet_append_of_not_mem acc p.1 p.2 hnotin,
      ih (acc ++ [p]) (by simpa [List.append_assoc] using h)]
    simp [List.append_assoc]

/-- Re-parsing a serialized jar reproduces the jar, provided every stored
value is defined and the URL-encoding of every stored key and value is
separator- and whitespace-free and inverted by decoding (the standard
behaviour of `encodeURIComponent`/`decodeURIComponent`). -/
theorem cookieParse_cookieToString (decode encode : Str → Str)
    (jar : List (Str × CookieVal))
    (hnodup : (objKeys jar).Nodup) (hne : jar ≠ [])
    (hsome : ∀ p ∈ jar, p.2.isSome = true)
    (hclean : ∀ p ∈ jar, cleanComp (encode p.1) ∧ cleanComp (encodeVal encode p.2))
    (hdec : ∀ p ∈ jar, decode (encode p.1) = p.1 ∧
        decode (encodeVal encode p.2) = p.2.getD []) :
    cookieParse decode (cookieToString encode jar) = jar := by
  have hsegs : (cookieToString encode jar).splitOn ';' =
      jar.map (fun p => encode p.1 ++ '=' :: encodeVal encode p.2) := by
    unfold cookieToString
    apply List.splitOn_intercalate
    · intro l hl
      rcases List.mem_map.mp hl with ⟨p, hp, rfl⟩
      intro hmem
      rcases (by simpa using hmem :
          ';' ∈ encode p.1 ∨ ';' = '=' ∨ ';' ∈ encodeVal encode p.2) with h | h | h
      · exact ((hclean p hp).1 ';' h).1 rfl
      · cases h
      · exact ((hclean p hp).2 ';' h).1 rfl
    · simpa using hne
  rw [cookieParse, hsegs, List.foldl_map]
  have hstep : ∀ (r : List (Str × CookieVal)), ∀ p ∈ jar,
      objSet r (cookieKey decode (encode p.1 ++ '=' :: encodeVal encode p.2))
        (cookieVal decode (encode p.1 ++ '=' :: encodeVal encode p.2)) =
      objSet r p.1 p.2 := by
    intro r p hp
    have hcomps := cookieComps_pair decode (encode p.1) (encodeVal encode p.2)
      (hclean p hp).1 (hclean p hp).2
    rw [cookieKey, cookieVal, hcomps]
    simp only [List.headD_cons, List.get?]
    rw [(hdec p hp).1, (hdec p hp).2]
    rcases hv : p.2 with _ | v
    · exact absurd (hsome p hp) (by simp [hv])
    · simp
  rw [List.foldl_ext _ _ [] hstep]
  have := foldl_objSet_self jar [] (by simpa using hnodup)
  simpa using this

/-- C7: parsing a non-empty well-formed cookie string (keys and values free of
`;` and `=`), serializing the jar and re-parsing reproduces the same jar,
given that URL-encoding of the jar's entries is clean and inverted by
decoding. -/
theorem cookieJar_roundtrip (decode encode : Str → Str)
    (pairs : List (Str × Str)) (s : Str)
    (hpairs : pairs ≠ [])
    (hwf : s = List.intercalate [';'] (pairs.map (fun q => q.1 ++ '=' :: q.2)))
    (hkv : ∀ q ∈ pairs, ';' ∉ q.1 ∧ '=' ∉ q.1 ∧ ';' ∉ q.2 ∧ '=' ∉ q.2)
    (hclean : ∀ p ∈ cookieParse decode s,
        cleanComp (encode p.1) ∧ cleanComp (encodeVal encode p.2))
    (hdec : ∀ p ∈ cookieParse decode s, decode (encode p.1) = p.1 ∧
        decode (encodeVal encode p.2) = p.2.getD []) :
    cookieParse decode (cookieToString encode (cookieParse decode s)) =
      cookieParse decode s := by
  apply cookieParse_cookieToString decode encode (cookieParse decode s)
    (cookieParse_nodup decode s) (cookieParse_ne_nil decode s) ?_ hclean hdec
  have hsegs : s.splitOn ';' = pairs.map (fun q => q.1 ++ '=' :: q.2) := by
    rw [hwf]
    apply List.splitOn_intercalate
    · intro l hl
      rcases List.mem_map.mp hl with ⟨q, hq, rfl⟩
      intro hmem
      rcases (by simpa using hmem : ';' ∈ q.1 ∨ ';' = '=' ∨ ';' ∈ q.2) with h | h | h
      · exact (hkv q hq).1 h
      · cases h
      · exact (hkv q hq).2.2.1 h
    · simpa using hpairs
  intro p hp
  rw [cookieParse, hsegs] at hp
  refine foldl_objSet_vals (fun v => v.isSome = true) (cookieKey decode)
    (cookieVal decode) _ [] (by simp) ?_ p hp
  intro c hc
  rcases List.mem_map.mp hc with ⟨q, hq, rfl⟩
  exact cookieVal_wf_segment decode q.1 q.2 (hkv q hq).2.1 (hkv q hq).2.2.2

def w7Pairs : List (Str × Str) := [("a".toList, "b".toList), ("c".toList, "d".toList)]

def w7s : Str := "a=b;c=d".toList

/-- Witness for C7 with the identity as URL encoding/decoding on the cookie
string `a=b;c=d`. -/
theorem cookieJar_roundtrip_witness :
    cookieParse id (cookieToString id (cookieParse id w7s)) = cookieParse id w7s :=
  cookieJar_roundtrip id id w7Pairs w7s (by decide) (by decide) (by decide)
    (by decide) (by decide)

/-! ## Response encoding and the content-type override -/

/-- Counterexample to C3 as stated: a `text` descriptor that explicitly
supplies `content-type: text/css` is encoded with `content-type: text/plain` —
the body-variant default is assigned after the explicit headers are loaded and
overwrites them, not the other way around. -/
theorem encodeResponse_explicit_ct_overwritten :
    objGet (encodeResponse (fun _ => [])
        { status := none, headers := some [(ctKey, "text/css".toList)],
          body := .text ("hi".toList) }).headers ctKey =
      some ("text/plain".toList) ∧
    objGet (encodeResponse (fun _ => [])
        { status := none, headers := some [(ctKey, "text/css".toList)],
          body := .text ("hi".toList) }).headers ctKey ≠
      some ("text/css".toList) := by
  exact ⟨by decide, by decide⟩

/-- C3 (amended): for a `json`, `text` or `html` body the default
content-type implied by the body variant is assigned into the headers object
after the explicit headers are loaded, so it overwrites any explicitly
supplied content-type; explicit headers under any other key are preserved
unchanged. -/
theorem encodeResponse_body_ct_wins (stringify : Json → Str)
    (hs : List (Str × Str)) (st : Option Nat) :
    (∀ v : Json, objGet (encodeResponse stringify
        { status := st, headers := some hs, body := .json v }).headers ctKey =
      some ("application/json".toList)) ∧
    (∀ s : Str, objGet (encodeResponse stringify
        { status := st, headers := some hs, body := .text s }).headers ctKey =
      some ("text/plain".toList)) ∧
    (∀ s : Str, objGet (encodeResponse stringify
        { status := st, headers := some hs, body := .html s }).headers ctKey =
      some ("text/html".toList)) ∧
    (∀ (k s : Str), k ≠ ctKey → objGet (encodeResponse stringify
        { status := st, headers := some hs, body := .text s }).headers k =
      objGet hs k) := by
  refine ⟨fun v => ?_, fun s => ?_, fun s => ?_, fun k s hk => ?_⟩
  · simp only [encodeResponse, Option.getD_some]
    exact objGet_objSet_same hs ctKey _
  · simp only [encodeResponse, Option.getD_some]
    exact objGet_objSet_same hs ctKey _
  · simp only [encodeResponse, Option.getD_some]
    exact objGet_objSet_same hs ctKey _
  · simp only [encodeResponse, Option.getD_some]
    exact objGet_objSet_other hs ctKey k _ hk

def w3Headers : List (Str × Str) :=
  [(ctKey, "text/css".toList), ("authorization".toList, "tok".toList)]

/-- Witness for the amended C3 at a concrete descriptor. -/
theorem encodeResponse_body_ct_wins_witness :
    objGet (encodeResponse (fun _ => [])
        { status := none, headers := some w3Headers,
          body := .text ("hi".toList) }).headers ctKey =
      some ("text/plain".toList) ∧
    objGet (encodeResponse (fun _ => [])
        { status := none, headers := some w3Headers,
          body := .text ("hi".toList) }).headers ("authorization".toList) =
      objGet w3Headers ("authorization".toList) :=
  ⟨(encodeResponse_body_ct_wins (fun _ => []) w3Headers none).2.1 ("hi".toList),
   (encodeResponse_body_ct_wins (fun _ => []) w3Headers none).2.2.2
     ("authorization".toList) ("hi".toList) (by decide)⟩

/-! ## GraphQL adapter claims -/

/-- A `JSON.parse` that throws on every input — in particular on the empty
string, which real `JSON.parse` also rejects. -/
def parseJsonNone : Str → Option Json := fun _ => none

def w6Req : HTTPRequest :=
  { method := "GET".toList, pathname := [],
    queryParams := [("query".toList, "q".toList), ("variables".toList, [])],
    headers := [], jsonBody := .error [], textBody := [] }

/-- Counterexample to C6 as stated: a GET request carrying a `variables`
parameter whose value (the empty string) is not parseable JSON still resolves
to a query — the `|| undefined` coercion discards the falsy empty string
before `JSON.parse` ever runs, so no parse failure occurs. -/
theorem getGraphQLQuery_empty_variables_not_null :
    parseJsonNone [] = none ∧
    queryGet w6Req ("variables".toList) = some [] ∧
    getGraphQLQuery parseJsonNone w6Req =
      .ok (some { query := "q".toList, operationName := none, vars := none }) ∧
    getGraphQLQuery parseJsonNone w6Req ≠ .ok none := by
  refine ⟨rfl, rfl, rfl, fun h => Option.noConfusion (Except.ok.inj h)⟩

/-- C6 (amended): `getGraphQLQuery` resolves no query for a GET request with
no `query` parameter, and for a GET request whose `variables` parameter is
present, non-empty and unparseable (the parse error is swallowed); an empty
`variables` value is coerced to undefined and the query is still resolved.
`handleGraphQLRequest` answers the plain-text 400 response exactly when no
query was resolved, and otherwise delegates to the executor and wraps its
result as a JSON response. -/
theorem graphql_query_null_cases {Schema : Type} (parseJson : Str → Option Json)
    (exec : Schema → Str → Option Json → Option Str → Json) (schema : Schema)
    (req : HTTPRequest) :
    (toLowerStr req.method = "get".toList →
      queryGet req ("query".toList) = none →
      getGraphQLQuery parseJson req = .ok none) ∧
    (toLowerStr req.method = "get".toList →
      ∀ v, queryGet req ("variables".toList) = some v → v ≠ [] →
        parseJson v = none → getGraphQLQuery parseJson req = .ok none) ∧
    (toLowerStr req.method = "get".toList →
      ∀ q, queryGet req ("query".toList) = some q →
        queryGet req ("variables".toList) = some [] →
        getGraphQLQuery parseJson req = .ok (some
          { query := q,
            operationName := orUndefined (queryGet req ("operationName".toList)),
            vars := none })) ∧
    (∀ resp, handleGraphQLRequest parseJson exec schema req = .ok resp →
      (resp = badRequestResponse ↔ getGraphQLQuery parseJson req = .ok none)) ∧
    (∀ g, getGraphQLQuery parseJson req = .ok (some g) →
      handleGraphQLRequest parseJson exec schema req = .ok
        { status := none, headers := none,
          body := .json (exec schema g.query g.vars g.operationName) }) := by
  refine ⟨?_, ?_, ?_, ?_, ?_⟩
  · intro hget hq
    simp only [queryGet] at hq
    simp at hq
    simp [getGraphQLQuery, hget, queryGet, hq]
  · intro hget v hv hne hparse
    have hvE : v.isEmpty = false := by
      cases v with
      | nil => exact absurd rfl hne
      | cons a t => rfl
    simp only [queryGet] at hv
    simp at hv
    cases hq : objGet req.queryParams ("query".toList) with
    | none =>
      simp at hq
      simp [getGraphQLQuery, hget, queryGet, hq]
    | some q =>
      simp at hq
      simp [getGraphQLQuery, hget, queryGet, hq, hv, orUndefined, hvE, hparse]
  · intro hget q hq hv
    simp only [queryGet] at hq hv
    simp at hq hv
    simp [getGraphQLQuery, hget, queryGet, hq, hv, orUndefined]
  · intro resp hresp
    cases hg : getGraphQLQuery parseJson req with
    | error e =>
      rw [handleGraphQLRequest, hg] at hresp
      exact absurd hresp (by simp)
    | ok o =>
      cases o with
      | none =>
        rw [handleGraphQLRequest, hg] at hresp
        have hr : resp = badRequestResponse := by
          simpa using (Except.ok.inj hresp).symm
        subst hr
        simp
      | some g =>
        rw [handleGraphQLRequest, hg] at hresp
        have hr : resp = ⟨none, none, Body.json (exec schema g.query g.vars g.operationName)⟩ := by
          simpa using (Except.ok.inj hresp).symm
        subst hr
        constructor
        · intro hbad
          exact absurd hbad (by simp [badRequestResponse])
        · intro hnone
          exact absurd (Except.ok.inj hnone) (by simp)
  · intro g hg
    rw [handleGraphQLRequest, hg]

def w6ReqA : HTTPRequest :=
  { method := "GET".toList, pathname := [], queryParams := [], headers := [],
    jsonBody := .error [], textBody := [] }

def w6ReqB : HTTPRequest :=
  { method := "GET".toList, pathname := [],
    queryParams := [("query".toList, "q".toList), ("variables".toList, "x".toList)],
    headers := [], jsonBody := .error [], textBody := [] }

def w6Exec : Unit → Str → Option Json → Option Str → Json := fun _ _ _ _ => Json.null

/-- Witness for the amended C6: a GET without `query` and a GET with
unparseable non-empty `variables` both resolve to no query; the 400 response
characterizes exactly that case; a resolved query is delegated and wrapped as
JSON. -/
theorem graphql_query_null_cases_witness :
    getGraphQLQuery parseJsonNone w6ReqA = .ok none ∧
    getGraphQLQuery parseJsonNone w6ReqB = .ok none ∧
    (badRequestResponse = badRequestResponse ↔
      getGraphQLQuery parseJsonNone w6ReqB = .ok none) ∧
    handleGraphQLRequest parseJsonNone w6Exec () w6Req = .ok
      { status := none, headers := none,
        body := .json (w6Exec () ("q".toList) none none) } :=
  ⟨(graphql_query_null_cases parseJsonNone w6Exec () w6ReqA).1 (by decide) rfl,
   (graphql_query_null_cases parseJsonNone w6Exec () w6ReqB).2.1 (by decide)
     ("x".toList) rfl (by decide) rfl,
   (graphql_query_null_cases parseJsonNone w6Exec () w6ReqB).2.2.2.1
     badRequestResponse rfl,
   (graphql_query_null_cases parseJsonNone w6Exec () w6Req).2.2.2.2
     { query := "q".toList, operationName := none, vars := none } rfl⟩
